import Mathlib

/-!
Verification of the dossier repository (github.go, gitlab.go, bitbucket.go):
a shallow embedding of its data model and operations, with theorems settling
the specification claims.

Modelling conventions.  A compiled regular expression is modelled by its
`MatchString` semantics, a function `String → Bool`.  The external libraries
`net/mail` (ParseAddress), `golang.org/x/net/publicsuffix` (PublicSuffix),
`net/url` (Parse) and the `time` parse-and-reformat step are modelled as
capabilities carried by a `GoEnv` record; the repository's own control flow
around them is embedded faithfully.  Paged HTTP traffic is modelled by a
finite script of responses, consumed one response per loop iteration exactly
as the Go loops issue one request per iteration; findings printed by the Go
code are modelled as structured finding values in print order.
-/

namespace Dossier

-- ===================== character-list helpers =====================

/-- Models `unicode.IsSpace` (as used by `strings.TrimSpace`) on the
Latin-1 range. -/
def goIsSpace (c : Char) : Bool :=
  c = ' ' || c = '\t' || c = '\n' || c = '\x0b' || c = '\x0c' || c = '\r' ||
  c = '\x85' || c = '\xa0'

/-- Models `strings.TrimSpace` on the character list of a string. -/
def trimSpace (l : List Char) : List Char :=
  ((l.dropWhile goIsSpace).reverse.dropWhile goIsSpace).reverse

/-- The first list starts the second one (character-wise). -/
def leadsWith : List Char → List Char → Bool
  | [], _ => true
  | _ :: _, [] => false
  | a :: as, b :: bs => a = b && leadsWith as bs

/-- The first list occurs somewhere inside the second one; models
substring containment of Go strings. -/
def occursIn (s : List Char) : List Char → Bool
  | [] => s.isEmpty
  | b :: bs => leadsWith s (b :: bs) || occursIn s bs

/-- Substring containment on strings: `containsStr hay sub` is true when
`sub` occurs contiguously inside `hay`. -/
def containsStr (hay sub : String) : Bool := occursIn sub.data hay.data

/-- Splits a list at the first occurrence of `c`: the pair of the part
strictly before it and the part strictly after it.  When `c` does not occur
the result is `(l, [])`; callers in the embedding only use it under a
containment guard, mirroring `strings.SplitN(s, c, 2)`. -/
def spanUntil (c : Char) : List Char → List Char × List Char
  | [] => ([], [])
  | x :: xs =>
    if x = c then ([], xs)
    else
      let r := spanUntil c xs
      (x :: r.1, r.2)

/-- The part of `l` strictly after the last occurrence of `c`, or `none`
when `c` does not occur; models `strings.LastIndex` followed by slicing. -/
def afterLastChar (c : Char) (l : List Char) : Option (List Char) :=
  if l.contains c then some ((l.reverse.takeWhile (fun x => x != c)).reverse)
  else none

/-- Models `strings.TrimSuffix` for a one-character suffix: drops a final
`c` when present, otherwise returns the list unchanged. -/
def trimOneSuffix (c : Char) (l : List Char) : List Char :=
  match l.reverse with
  | [] => l
  | x :: xs => if x = c then xs.reverse else l

/-- The part of `l` strictly before the last occurrence of `c` (everything
up to, excluding, that occurrence); meaningful when `c` occurs in `l`. -/
def beforeLastChar (c : Char) (l : List Char) : List Char :=
  ((spanUntil c l.reverse).2).reverse

-- ===================== shared core (identical in all three files) =====================

/-- Source struct `Pattern {ID, Regex}`.  The `Regex` string together with
`regexp.MustCompile(pat.Regex).MatchString` is modelled by the match oracle
`matchString`, the compiled expression's MatchString semantics. -/
structure Pattern where
  ID : String
  matchString : String → Bool

/-- Source struct `Config` with the two signature categories. -/
structure Config where
  operatingSystems : List Pattern
  utilities : List Pattern

/-- Source `SearchPatterns`: collects, in pattern order, the ID of every
pattern whose regular expression matches somewhere in `text`. -/
def SearchPatterns (text : String) : List Pattern → List String
  | [] => []
  | pat :: rest =>
    if pat.matchString text then pat.ID :: SearchPatterns text rest
    else SearchPatterns text rest

/-- Source `IsBlacklisted`: true iff some compiled blacklist pattern
matches the address, returning at the first match (`||` short-circuits
exactly as the Go loop returns early). -/
def IsBlacklisted (email : String) : List (String → Bool) → Bool
  | [] => false
  | re :: rest => re email || IsBlacklisted email rest

/-- Capabilities of the external libraries used by the repository:
`parseAddress` models `mail.ParseAddress` (returning the parsed bare
`Address` on success), `publicSuffix` models
`publicsuffix.PublicSuffix` (the eTLD and the ICANN flag), `urlOk` models
whether `url.Parse` succeeds, and `formatDate` models the
parse-RFC3339-and-reformat step with raw-string fallback. -/
structure GoEnv where
  parseAddress : String → Option String
  publicSuffix : String → String × Bool
  urlOk : String → Bool
  formatDate : String → String

/-- Source `IsValidEmail`: the chain of checks in source order with
short-circuit on the first failure. -/
def IsValidEmail (env : GoEnv) (addr : String) : Bool :=
  if !(addr.data.contains '@') then false
  else
    match env.parseAddress addr with
    | none => false
    | some parsed =>
      match afterLastChar '@' parsed.data with
      | none => false
      | some dom =>
        if !(dom.contains '.') then false
        else
          if (env.publicSuffix (String.mk dom)).1 = "" ||
              !(env.publicSuffix (String.mk dom)).2 then false
          else env.urlOk ("http://" ++ String.mk dom)

-- ===================== github.go =====================

/-- Inner author/committer block of the GitHub commit payload. -/
structure GHAuthor where
  name : String
  email : String
  date : String
deriving DecidableEq

/-- Source struct `CommitInfo`. -/
structure CommitInfo where
  author : GHAuthor
  committer : GHAuthor
  message : String
deriving DecidableEq

/-- Source struct `CommitItem`. -/
structure CommitItem where
  sha : String
  htmlURL : String
  commit : CommitInfo
deriving DecidableEq

/-- Source struct `Repo` (github.go). -/
structure Repo where
  name : String
  fullName : String
  fork : Bool
deriving DecidableEq

/-- Lower-case hexadecimal digit, as produced by Go's JSON encoder. -/
def hexDigit (n : Nat) : Char :=
  if n < 10 then Char.ofNat (48 + n) else Char.ofNat (87 + n)

/-- Go `encoding/json` string escaping (with its default HTML escaping of
`<`, `>` and `&`), per character. -/
def jsonEscapeChar (c : Char) : List Char :=
  if c = '"' then ['\\', '"']
  else if c = '\\' then ['\\', '\\']
  else if c = '\n' then ['\\', 'n']
  else if c = '\r' then ['\\', 'r']
  else if c = '\t' then ['\\', 't']
  else if c.toNat < 32 then
    ['\\', 'u', '0', '0', hexDigit (c.toNat / 16), hexDigit (c.toNat % 16)]
  else if c = '<' then ['\\', 'u', '0', '0', '3', 'c']
  else if c = '>' then ['\\', 'u', '0', '0', '3', 'e']
  else if c = '&' then ['\\', 'u', '0', '0', '2', '6']
  else if c.toNat = 8232 then ['\\', 'u', '2', '0', '2', '8']
  else if c.toNat = 8233 then ['\\', 'u', '2', '0', '2', '9']
  else [c]

/-- Go JSON escaping of a whole string (content only, without the
surrounding quotes). -/
def jsonEscapeStr (s : String) : String := String.mk (s.data.flatMap jsonEscapeChar)

/-- A JSON string literal: escaped content in double quotes. -/
def jsonQuote (s : String) : String := "\"" ++ jsonEscapeStr s ++ "\""

/-- `json.Marshal` of the author/committer block, fields in struct order
with their tags. -/
def ghAuthorJson (a : GHAuthor) : String :=
  "\x7b\"name\":" ++ jsonQuote a.name ++ ",\"email\":" ++ jsonQuote a.email ++
  ",\"date\":" ++ jsonQuote a.date ++ "\x7d"

/-- `json.Marshal` of `CommitInfo`. -/
def commitInfoJson (ci : CommitInfo) : String :=
  "\x7b\"author\":" ++ ghAuthorJson ci.author ++ ",\"committer\":" ++
  ghAuthorJson ci.committer ++ ",\"message\":" ++ jsonQuote ci.message ++ "\x7d"

/-- `json.Marshal(c)` for a `CommitItem`: the text GitHub's
`ProcessCommits` hands to `SearchPatterns`. -/
def commitItemJson (c : CommitItem) : String :=
  "\x7b\"sha\":" ++ jsonQuote c.sha ++ ",\"html_url\":" ++ jsonQuote c.htmlURL ++
  ",\"commit\":" ++ commitInfoJson c.commit ++ "\x7d"

/-- One finding block printed by GitHub's `ProcessCommits`, as a
structured value (fields in print order). -/
inductive GHFinding where
  | email (email name date location : String)
  | os (id email date location : String)
  | util (id email date location : String)
deriving DecidableEq

/-- The identity tuples the GitHub `ProcessCommits` loop ranges over:
author then committer, each as (Name, Email). -/
def ghIdentities (c : CommitItem) : List (String × String) :=
  [(c.commit.author.name, c.commit.author.email),
   (c.commit.committer.name, c.commit.committer.email)]

/-- The `commitDate` value: author date, reformatted when it parses. -/
def ghCommitDate (env : GoEnv) (c : CommitItem) : String :=
  env.formatDate c.commit.author.date

/-- The Email blocks emitted for one GitHub commit: one per identity tuple
that passes `IsValidEmail` and is not blacklisted. -/
def ghEmailFindings (env : GoEnv) (bl : List (String → Bool)) (c : CommitItem) :
    List GHFinding :=
  (ghIdentities c).filterMap fun who =>
    if IsValidEmail env who.2 && !(IsBlacklisted who.2 bl) then
      some (GHFinding.email who.2 who.1 (ghCommitDate env c) c.htmlURL)
    else none

/-- The findings of one iteration of GitHub's `ProcessCommits` loop:
email blocks, then operating-system blocks, then utility blocks. -/
def ghProcessCommit (env : GoEnv) (cfg : Config) (bl : List (String → Bool))
    (c : CommitItem) : List GHFinding :=
  ghEmailFindings env bl c ++
  (SearchPatterns (commitItemJson c) cfg.operatingSystems).map
    (fun m => GHFinding.os m c.commit.author.email (ghCommitDate env c) c.htmlURL) ++
  (SearchPatterns (commitItemJson c) cfg.utilities).map
    (fun m => GHFinding.util m c.commit.author.email (ghCommitDate env c) c.htmlURL)

/-- Source `ProcessCommits` (github.go): findings for all items in order. -/
def ghProcessCommits (env : GoEnv) (cfg : Config) (bl : List (String → Bool))
    (items : List CommitItem) : List GHFinding :=
  (items.map (ghProcessCommit env cfg bl)).flatten

/-- One scripted response of the GitHub API: a transport failure, or a
status code together with the decode result of the body (`none` when the
body is not a commit page). -/
inductive GHResp where
  | fail
  | page (status : Nat) (body : Option (List CommitItem))

/-- How a GitHub scan loop ended.  `scriptEnded` marks a script too short
to reach any terminator; the theorems only use terminated scripts. -/
inductive GHOutcome where
  | exhausted
  | searchCap
  | transportError
  | apiError (status : Nat)
  | decodeError
  | scriptEnded
deriving DecidableEq

/-- Source `ScanGlobalCommits` loop body on a response script: emits the
findings of each 200-status page in order; an empty page ends the pass
normally; status 422 ends the pass via the search-cap branch; any
other non-200 status ends it via the API-error branch without looking at
the body; an undecodable 200 body ends it via the parse-error branch. -/
def ghScanGlobal (env : GoEnv) (cfg : Config) (bl : List (String → Bool)) :
    List GHResp → List GHFinding × GHOutcome
  | [] => ([], GHOutcome.scriptEnded)
  | GHResp.fail :: _ => ([], GHOutcome.transportError)
  | GHResp.page status body :: rest =>
    if status = 200 then
      match body with
      | none => ([], GHOutcome.decodeError)
      | some items =>
        if items.isEmpty then ([], GHOutcome.exhausted)
        else
          let r := ghScanGlobal env cfg bl rest
          (ghProcessCommits env cfg bl items ++ r.1, r.2)
    else if status = 422 then ([], GHOutcome.searchCap)
    else ([], GHOutcome.apiError status)

/-- Source `ScanRepoCommits` loop (github.go): like the global scan but
with no special 422 branch. -/
def ghScanRepo (env : GoEnv) (cfg : Config) (bl : List (String → Bool)) :
    List GHResp → List GHFinding × GHOutcome
  | [] => ([], GHOutcome.scriptEnded)
  | GHResp.fail :: _ => ([], GHOutcome.transportError)
  | GHResp.page status body :: rest =>
    if status = 200 then
      match body with
      | none => ([], GHOutcome.decodeError)
      | some items =>
        if items.isEmpty then ([], GHOutcome.exhausted)
        else
          let r := ghScanRepo env cfg bl rest
          (ghProcessCommits env cfg bl items ++ r.1, r.2)
    else ([], GHOutcome.apiError status)

/-- The three phases of github.go's `main` after configuration loading:
the ascending global pass, the descending global pass, and the per-repo
scans, each on its own response script.  `main` runs them in sequence
unconditionally (no phase aborts the program), which this composition
captures. -/
def ghMainPhases (env : GoEnv) (cfg : Config) (bl : List (String → Bool))
    (s1 s2 : List GHResp) (repoScripts : List (List GHResp)) :
    (List GHFinding × GHOutcome) × (List GHFinding × GHOutcome) ×
      List (List GHFinding × GHOutcome) :=
  (ghScanGlobal env cfg bl s1, ghScanGlobal env cfg bl s2,
   repoScripts.map (ghScanRepo env cfg bl))

/-- The repo loop of github.go's `main`: the repositories for which
`ScanRepoCommits` is called, in order (forks are skipped). -/
def ghDriveRepos : List Repo → List Repo
  | [] => []
  | r :: rest => if r.fork then ghDriveRepos rest else r :: ghDriveRepos rest

-- ===================== gitlab.go =====================

/-- Source struct `GitLabCommit`. -/
structure GitLabCommit where
  id : String
  shortID : String
  title : String
  authorName : String
  authorEmail : String
  authoredDate : String
  webURL : String
deriving DecidableEq

/-- Source struct `GitLabProject`; the pointer field `ForkedFromProject`
(carrying the parent project id) is modelled as an `Option`. -/
structure GitLabProject where
  id : Nat
  name : String
  path : String
  webURL : String
  forkedFromProject : Option Nat
deriving DecidableEq

/-- One finding block printed by GitLab's `ProcessCommits`; the committer
field of the signature blocks is the rendered `Name <email>` string. -/
inductive GLFinding where
  | email (email name date project : String)
  | os (id committer date project : String)
  | util (id committer date project : String)
deriving DecidableEq

/-- The `Committer: Name <email>` rendering used by the signature blocks
of gitlab.go. -/
def glCommitterStr (c : GitLabCommit) : String :=
  c.authorName ++ " <" ++ c.authorEmail ++ ">"

/-- The findings of one iteration of GitLab's `ProcessCommits` loop.  Note
the signature matcher is run on `c.title` only. -/
def glProcessCommit (env : GoEnv) (cfg : Config) (bl : List (String → Bool))
    (projectURL : String) (c : GitLabCommit) : List GLFinding :=
  (if IsValidEmail env c.authorEmail && !(IsBlacklisted c.authorEmail bl) then
    [GLFinding.email c.authorEmail c.authorName (env.formatDate c.authoredDate)
      projectURL]
  else []) ++
  (SearchPatterns c.title cfg.operatingSystems).map
    (fun m => GLFinding.os m (glCommitterStr c) (env.formatDate c.authoredDate)
      projectURL) ++
  (SearchPatterns c.title cfg.utilities).map
    (fun m => GLFinding.util m (glCommitterStr c) (env.formatDate c.authoredDate)
      projectURL)

/-- Source `ProcessCommits` (gitlab.go). -/
def glProcessCommits (env : GoEnv) (cfg : Config) (bl : List (String → Bool))
    (projectURL : String) (commits : List GitLabCommit) : List GLFinding :=
  (commits.map (glProcessCommit env cfg bl projectURL)).flatten

/-- The identifiers of the signature findings (OS and utility blocks) in a
GitLab finding list, in order. -/
def glSigIds (fs : List GLFinding) : List String :=
  fs.filterMap fun f =>
    match f with
    | GLFinding.os i _ _ _ => some i
    | GLFinding.util i _ _ _ => some i
    | GLFinding.email _ _ _ _ => none

/-- The buffering page loop shared by gitlab.go's `ScanProjectCommits` and
the page-numbered GitHub loops: pages are requested in order and
concatenated until the first empty page, which terminates the loop (pages
after the terminator are never requested). -/
def collectUntilEmpty {γ : Type} : List (List γ) → List γ
  | [] => []
  | p :: rest => if p.isEmpty then [] else p ++ collectUntilEmpty rest

/-- Cursor pagination of bitbucket.go: every fetched page's values are
appended (also empty ones) and the loop continues exactly while the page
carries a next-cursor URL. -/
def collectCursor {γ : Type} : List (List γ × Bool) → List γ
  | [] => []
  | pg :: rest => pg.1 ++ (if pg.2 then collectCursor rest else [])

/-- Source `ScanProjectCommits` (gitlab.go): the commit list handed to
`ProcessCommits` — all pages buffered in natural (newest-first) order,
reversed locally when `ascending` was requested. -/
def glScanProjectCommits (script : List (List GitLabCommit)) (ascending : Bool) :
    List GitLabCommit :=
  let all := collectUntilEmpty script
  if ascending then all.reverse else all

/-- The project loop of gitlab.go's `main`: the `ScanProjectCommits` calls
made, in order — forks are skipped, every other project is scanned twice,
ascending then descending. -/
def glDriveCalls : List GitLabProject → List (GitLabProject × Bool)
  | [] => []
  | p :: rest =>
    if p.forkedFromProject.isNone then
      (p, true) :: (p, false) :: glDriveCalls rest
    else glDriveCalls rest

/-- The findings gitlab.go's `main` emits for one non-fork project: the
ascending pass followed by the descending pass, both fetching the same
pages. -/
def glRunProjectBothPasses (env : GoEnv) (cfg : Config)
    (bl : List (String → Bool)) (p : GitLabProject)
    (script : List (List GitLabCommit)) : List GLFinding :=
  glProcessCommits env cfg bl p.webURL (glScanProjectCommits script true) ++
  glProcessCommits env cfg bl p.webURL (glScanProjectCommits script false)

-- ===================== bitbucket.go =====================

/-- Source struct `BitbucketCommit`; the nested `Author.Raw` and
`Links.HTML.Href` fields are flattened to `raw` and `href`. -/
structure BBCommit where
  hash : String
  date : String
  message : String
  raw : String
  href : String
deriving DecidableEq

/-- Source `parseRawAuthor`: when the raw string contains both `<` and
`>`, split at the first `<` (`strings.SplitN(raw, "<", 2)`), trim the name
and strip one trailing `>` from the remainder (`strings.TrimSuffix`);
otherwise the whole string is the name and the email is empty. -/
def parseRawAuthor (raw : String) : String × String :=
  if raw.data.contains '<' && raw.data.contains '>' then
    (String.mk (trimSpace (spanUntil '<' raw.data).1),
     String.mk (trimOneSuffix '>' (spanUntil '<' raw.data).2))
  else (raw, "")

/-- One finding block printed by Bitbucket's `ProcessCommits`. -/
inductive BBFinding where
  | email (email name date repo location : String)
  | os (id date repo location : String)
  | util (id date repo location : String)
deriving DecidableEq

/-- The composed signature text of bitbucket.go:
`fmt.Sprintf("%s %s %s", c.Message, c.Author.Raw, repoName)`. -/
def bbCommitText (c : BBCommit) (repoName : String) : String :=
  c.message ++ " " ++ c.raw ++ " " ++ repoName

/-- The Email block of one Bitbucket commit (empty or a singleton). -/
def bbEmailFindings (env : GoEnv) (bl : List (String → Bool)) (c : BBCommit)
    (repoName : String) : List BBFinding :=
  if IsValidEmail env (parseRawAuthor c.raw).2 &&
      !(IsBlacklisted (parseRawAuthor c.raw).2 bl) then
    [BBFinding.email (parseRawAuthor c.raw).2 (parseRawAuthor c.raw).1
      (env.formatDate c.date) repoName c.href]
  else []

/-- The operating-system blocks of one Bitbucket commit. -/
def bbOsFindings (env : GoEnv) (cfg : Config) (c : BBCommit) (repoName : String) :
    List BBFinding :=
  (SearchPatterns (bbCommitText c repoName) cfg.operatingSystems).map
    (fun m => BBFinding.os m (env.formatDate c.date) repoName c.href)

/-- The utility blocks of one Bitbucket commit. -/
def bbUtilFindings (env : GoEnv) (cfg : Config) (c : BBCommit) (repoName : String) :
    List BBFinding :=
  (SearchPatterns (bbCommitText c repoName) cfg.utilities).map
    (fun m => BBFinding.util m (env.formatDate c.date) repoName c.href)

/-- The findings of one iteration of Bitbucket's `ProcessCommits` loop. -/
def bbProcessCommit (env : GoEnv) (cfg : Config) (bl : List (String → Bool))
    (repoName : String) (c : BBCommit) : List BBFinding :=
  bbEmailFindings env bl c repoName ++ bbOsFindings env cfg c repoName ++
  bbUtilFindings env cfg c repoName

/-- Source `ProcessCommits` (bitbucket.go). -/
def bbProcessCommits (env : GoEnv) (cfg : Config) (bl : List (String → Bool))
    (repoName : String) (commits : List BBCommit) : List BBFinding :=
  (commits.map (bbProcessCommit env cfg bl repoName)).flatten

/-- Source `ScanRepoCommits` (bitbucket.go): the commit list handed to
`ProcessCommits` — cursor pages buffered in natural order, reversed
locally when `ascending` was requested. -/
def bbScanRepoCommits (script : List (List BBCommit × Bool)) (ascending : Bool) :
    List BBCommit :=
  let all := collectCursor script
  if ascending then all.reverse else all

-- ===================== refinement definition for claim C7 =====================

/-- Modelled from the spec wording of claim C7 (not from the source): the
name is the trimmed text before the first `<` and the email is the text
between that `<` and the LAST `>`; with the angle brackets absent the
whole string is the name and the email is empty. -/
def specParseRawAuthor (raw : String) : String × String :=
  if raw.data.contains '<' && raw.data.contains '>' then
    (String.mk (trimSpace (spanUntil '<' raw.data).1),
     String.mk (beforeLastChar '>' (spanUntil '<' raw.data).2))
  else (raw, "")

-- ===================== concrete fixtures for witnesses =====================

/-- A permissive capability record: every address parses to itself, every
domain has the ICANN suffix `com`, every URL parses. -/
def envAccept : GoEnv :=
  { parseAddress := fun s => some s
    publicSuffix := fun _ => ("com", true)
    urlOk := fun _ => true
    formatDate := fun s => s }

/-- A rejecting capability record: no address parses. -/
def envReject : GoEnv :=
  { parseAddress := fun _ => none
    publicSuffix := fun _ => ("", false)
    urlOk := fun _ => false
    formatDate := fun s => s }

/-- A configuration with no signature patterns. -/
def cfgEmpty : Config := { operatingSystems := [], utilities := [] }

/-- A pattern whose expression matches every text. -/
def patAlways : Pattern := { ID := "x", matchString := fun _ => true }

/-- A pattern matching texts containing `Arch`. -/
def patArch : Pattern := { ID := "arch", matchString := fun t => containsStr t "Arch" }

/-- A pattern matching texts containing `zsh`. -/
def patZsh : Pattern := { ID := "zsh", matchString := fun t => containsStr t "zsh" }

/-- Utilities-only configuration holding `patZsh`. -/
def cfgZshUtil : Config := { operatingSystems := [], utilities := [patZsh] }

/-- Operating-systems-only configuration holding `patArch`. -/
def cfgArchOS : Config := { operatingSystems := [patArch], utilities := [] }

/-- A concrete GitHub identity block. -/
def ghAuthorW : GHAuthor :=
  { name := "John", email := "john@sub.example.com", date := "2020-01-02T03:04:05Z" }

/-- A concrete GitHub commit item. -/
def ghCommitW : CommitItem :=
  { sha := "abc123", htmlURL := "http://example.com/c"
    commit := { author := ghAuthorW, committer := ghAuthorW, message := "msg" } }

/-- A GitLab commit whose signature (`zsh`) sits in the author name, not
in the title. -/
def glCommitZsh : GitLabCommit :=
  { id := "1", shortID := "1", title := "update readme", authorName := "zsh fan"
    authorEmail := "x@y.com", authoredDate := "d", webURL := "" }

/-- A second GitLab commit, used for pagination fixtures. -/
def glCommitB : GitLabCommit :=
  { id := "2", shortID := "2", title := "second", authorName := "B"
    authorEmail := "b@b.com", authoredDate := "d2", webURL := "" }

/-- A non-fork GitLab project. -/
def glProjW : GitLabProject :=
  { id := 1, name := "p", path := "u/p", webURL := "http://gl/p"
    forkedFromProject := none }

/-- A forked GitLab project. -/
def glProjFork : GitLabProject :=
  { id := 2, name := "q", path := "u/q", webURL := "http://gl/q"
    forkedFromProject := some 1 }

/-- A forked GitHub repository. -/
def repoFork : Repo := { name := "f", fullName := "u/f", fork := true }

/-- A non-fork GitHub repository. -/
def repoMain : Repo := { name := "m", fullName := "u/m", fork := false }

/-- A Bitbucket commit whose raw author string has no angle brackets and
whose message mentions Arch. -/
def bbCommitNoAngle : BBCommit :=
  { hash := "h", date := "d", message := "Switched to Arch Linux"
    raw := "justname", href := "http://bb/c" }

/-- A second Bitbucket commit, used for pagination fixtures. -/
def bbCommitB : BBCommit :=
  { hash := "h2", date := "d2", message := "other", raw := "A <a@b.com>"
    href := "http://bb/c2" }

-- ===================== helper lemmas =====================

theorem isBlacklisted_iff_exists (e : String) :
    ∀ bl : List (String → Bool), IsBlacklisted e bl = true ↔ ∃ re ∈ bl, re e = true := by
  intro bl
  induction bl with
  | nil => simp [IsBlacklisted]
  | cons re rest ih =>
    simp [IsBlacklisted, Bool.or_eq_true, ih, List.mem_cons]

theorem searchPatterns_eq_filter_map (text : String) :
    ∀ pats : List Pattern,
      SearchPatterns text pats =
        (pats.filter (fun p => p.matchString text)).map Pattern.ID := by
  intro pats
  induction pats with
  | nil => rfl
  | cons p rest ih =>
    rw [SearchPatterns, List.filter_cons]
    cases h : p.matchString text <;> simp [h, ih]

-- ===================== claim theorems =====================

/-- Claim C2: `IsValidEmail(addr)` is true iff, in source order: `addr`
contains `@`; it parses as a single well-formed mail address; the domain
(the part after the last `@` of the parsed bare address) contains a `.`;
the domain's public suffix is non-empty and ICANN-managed; and
`http://` + domain parses as a URL.  Any address lacking `@` is invalid,
and any parsed address whose domain has no `.` is invalid.  (The function
is total, so a boolean always comes back and nothing propagates.) -/
theorem isValidEmail_spec (env : GoEnv) (addr : String) :
    (IsValidEmail env addr = true ↔
      (addr.data.contains '@' = true ∧
       ∃ parsed, env.parseAddress addr = some parsed ∧
         ∃ dom, afterLastChar '@' parsed.data = some dom ∧
           dom.contains '.' = true ∧
           (env.publicSuffix (String.mk dom)).1 ≠ "" ∧
           (env.publicSuffix (String.mk dom)).2 = true ∧
           env.urlOk ("http://" ++ String.mk dom) = true)) ∧
    (addr.data.contains '@' = false → IsValidEmail env addr = false) ∧
    (∀ parsed dom, env.parseAddress addr = some parsed →
       afterLastChar '@' parsed.data = some dom → dom.contains '.' = false →
       IsValidEmail env addr = false) := by
  refine ⟨⟨?_, ?_⟩, ?_, ?_⟩
  · intro h
    unfold IsValidEmail at h
    split at h
    · simp at h
    next hat =>
      refine ⟨by revert hat; cases addr.data.contains '@' <;> simp, ?_⟩
      split at h
      · simp at h
      next parsed hp =>
        refine ⟨parsed, hp, ?_⟩
        split at h
        · simp at h
        next dom ha =>
          refine ⟨dom, ha, ?_⟩
          split at h
          · simp at h
          next hdot =>
            split at h
            · simp at h
            next hsuf =>
              simp only [Bool.or_eq_true, decide_eq_true_eq, Bool.not_eq_true',
                not_or] at hsuf
              refine ⟨by revert hdot; cases dom.contains '.' <;> simp,
                hsuf.1, ?_, h⟩
              have h2 := hsuf.2
              revert h2; cases (env.publicSuffix (String.mk dom)).2 <;> simp
  · rintro ⟨hat, parsed, hp, dom, ha, hdot, hsuf1, hsuf2, hurl⟩
    have hat2 : '@' ∈ addr.data := by simpa using hat
    have hdot2 : '.' ∈ dom := by simpa using hdot
    simp [IsValidEmail, hat2, hp, ha, hdot2, hsuf1, hsuf2, hurl]
  · intro hat
    have hat2 : ¬('@' ∈ addr.data) := by simpa using hat
    simp [IsValidEmail, hat2]
  · intro parsed dom hp ha hdot
    have hdot2 : ¬('.' ∈ dom) := by simpa using hdot
    simp [IsValidEmail, hp, ha, hdot2]

/-- Witness for C2 at concrete inputs: `john@sub.example.com` is valid
under the permissive capabilities, and `bot@localhost` (a domain with no
`.`) is invalid. -/
theorem isValidEmail_spec_witness :
    (envAccept.parseAddress "bot@localhost" = some "bot@localhost" ∧
     afterLastChar '@' "bot@localhost".data = some "localhost".data ∧
     "localhost".data.contains '.' = false ∧
     IsValidEmail envAccept "bot@localhost" = false) ∧
    IsValidEmail envAccept "john@sub.example.com" = true := by
  refine ⟨⟨rfl, by decide, by decide, ?_⟩, by decide⟩
  exact (isValidEmail_spec envAccept "bot@localhost").2.2 "bot@localhost"
    "localhost".data rfl (by decide) (by decide)

/-- Claim C3 counterexample: a pattern set in which two patterns carry the
same identifier and both match makes that identifier appear twice in one
invocation, so "each identifier appears at most once per category per
invocation" fails as a universal statement. -/
theorem searchPatterns_cex :
    SearchPatterns "t" [patAlways, patAlways] = ["x", "x"] ∧
    ¬((SearchPatterns "t" [patAlways, patAlways]).count "x" ≤ 1) := by
  exact ⟨rfl, by decide⟩

/-- Claim C3 (amended): `SearchPatterns` returns exactly the identifiers
of the matching patterns, in pattern order, contributing each matching
pattern's identifier exactly once however many substrings its expression
could match; hence when the identifiers within a category are pairwise
distinct each appears at most once, and the number of findings equals the
number of matching patterns (two matching OS patterns and one matching
utility pattern give exactly 2 + 1 findings). -/
theorem searchPatterns_spec :
    (∀ (text : String) (pats : List Pattern),
       SearchPatterns text pats =
         (pats.filter (fun p => p.matchString text)).map Pattern.ID) ∧
    (∀ (text : String) (pats : List Pattern),
       (pats.map Pattern.ID).Nodup → (SearchPatterns text pats).Nodup) ∧
    (∀ (text : String) (pats : List Pattern),
       (SearchPatterns text pats).length =
         (pats.filter (fun p => p.matchString text)).length) := by
  refine ⟨searchPatterns_eq_filter_map, ?_, ?_⟩
  · intro text pats hnd
    rw [searchPatterns_eq_filter_map]
    exact hnd.sublist ((pats.filter_sublist).map Pattern.ID)
  · intro text pats
    rw [searchPatterns_eq_filter_map, List.length_map]

/-- Witness for C3 (amended) at concrete inputs: distinct identifiers stay
distinct in the result. -/
theorem searchPatterns_spec_witness :
    (([patArch, patZsh].map Pattern.ID).Nodup) ∧
    (SearchPatterns "Arch zsh stuff" [patArch, patZsh]).Nodup := by
  exact ⟨by decide, searchPatterns_spec.2.1 "Arch zsh stuff" [patArch, patZsh]
    (by decide)⟩

theorem spanUntil_decomp (c : Char) :
    ∀ l : List Char, c ∈ l → l = (spanUntil c l).1 ++ c :: (spanUntil c l).2 := by
  intro l
  induction l with
  | nil => intro h; simp at h
  | cons x xs ih =>
    intro h
    by_cases hx : x = c
    · subst hx; simp [spanUntil]
    · have hxs : c ∈ xs := by
        rcases List.mem_cons.mp h with h1 | h1
        · exact absurd h1.symm hx
        · exact h1
      simp only [spanUntil, if_neg hx]
      rw [List.cons_append, ← ih hxs]

theorem mem_of_getLast_eq {l : List Char} {c : Char} (h : l.getLast? = some c) :
    c ∈ l := by
  rw [List.getLast?_eq_head?_reverse] at h
  cases hr : l.reverse with
  | nil => rw [hr] at h; simp at h
  | cons x xs =>
    rw [hr] at h
    simp only [List.head?_cons, Option.some.injEq] at h
    have hx : c ∈ l.reverse := by rw [hr, h]; exact List.mem_cons_self c xs
    simpa using hx

theorem trimOneSuffix_eq_beforeLast (c : Char) (l : List Char)
    (h : l.getLast? = some c) : trimOneSuffix c l = beforeLastChar c l := by
  rw [List.getLast?_eq_head?_reverse] at h
  cases hr : l.reverse with
  | nil => rw [hr] at h; simp at h
  | cons x xs =>
    rw [hr] at h
    simp only [List.head?_cons, Option.some.injEq] at h
    subst h
    unfold trimOneSuffix beforeLastChar
    rw [hr]
    simp [spanUntil]

/-- Claim C7 counterexample: on `"John <j@x.com> z"` the source keeps
everything after the first `<` (stripping no `>` because the string does
not end in one), so the email is `"j@x.com> z"`, not the text between the
first `<` and the last `>` that the claim describes. -/
theorem parseRawAuthor_cex :
    parseRawAuthor "John <j@x.com> z" = ("John", "j@x.com> z") ∧
    specParseRawAuthor "John <j@x.com> z" = ("John", "j@x.com") ∧
    parseRawAuthor "John <j@x.com> z" ≠ specParseRawAuthor "John <j@x.com> z" := by
  exact ⟨by decide, by decide, by decide⟩

/-- Claim C7 (amended): with both angle brackets present the parser takes
the trimmed text before the first `<` as the name and everything after
that `<` with one trailing `>` removed as the email; when the raw string
ends in `>` this coincides with the text between the first `<` and the
last `>`.  With either bracket absent the whole string is the name and
the email is empty. -/
theorem parseRawAuthor_amended (raw : String) :
    (raw.data.contains '<' = false ∨ raw.data.contains '>' = false →
       parseRawAuthor raw = (raw, "")) ∧
    (raw.data.contains '<' = true → raw.data.contains '>' = true →
       parseRawAuthor raw =
         (String.mk (trimSpace (spanUntil '<' raw.data).1),
          String.mk (trimOneSuffix '>' (spanUntil '<' raw.data).2))) ∧
    (raw.data.contains '<' = true → raw.data.getLast? = some '>' →
       (parseRawAuthor raw).2 =
         String.mk (beforeLastChar '>' (spanUntil '<' raw.data).2)) := by
  refine ⟨?_, ?_, ?_⟩
  · intro h
    unfold parseRawAuthor
    rw [if_neg]
    rcases h with h | h
    · have hm : '<' ∉ raw.data := by simpa using h
      simp [hm]
    · have hm : '>' ∉ raw.data := by simpa using h
      simp [hm]
  · intro h1 h2
    unfold parseRawAuthor
    rw [if_pos (by rw [h1, h2]; rfl)]
  · intro h1 hlast
    have h2 : raw.data.contains '>' = true := by
      simpa using mem_of_getLast_eq hlast
    have hdecomp := spanUntil_decomp '<' raw.data (by simpa using h1)
    have hlast2 : ((spanUntil '<' raw.data).1 ++
        '<' :: (spanUntil '<' raw.data).2).getLast? = some '>' := by
      rw [← hdecomp]; exact hlast
    have hsnd : (spanUntil '<' raw.data).2.getLast? = some '>' := by
      cases hs : (spanUntil '<' raw.data).2 with
      | nil =>
        rw [hs] at hlast2
        rw [List.getLast?_concat] at hlast2
        simp at hlast2
      | cons y ys =>
        rw [hs] at hlast2
        rw [List.getLast?_append_of_ne_nil _ (by simp)] at hlast2
        simpa using hlast2
    unfold parseRawAuthor
    rw [if_pos (by rw [h1, h2]; rfl)]
    exact congrArg String.mk (trimOneSuffix_eq_beforeLast '>' _ hsnd)

/-- Witness for C7 (amended) at a concrete input ending in `>`. -/
theorem parseRawAuthor_amended_witness :
    ("A <b>".data.contains '<' = true ∧ "A <b>".data.getLast? = some '>') ∧
    (parseRawAuthor "A <b>").2 =
      String.mk (beforeLastChar '>' (spanUntil '<' "A <b>".data).2) ∧
    (parseRawAuthor "A <b>").2 = "b" := by
  refine ⟨⟨by decide, by decide⟩, ?_, by decide⟩
  exact (parseRawAuthor_amended "A <b>").2.2 (by decide) (by decide)

/-- Claim C1: for every commit and every identity tuple (name, email) on
it, the pipeline emits that identity's EmailFinding iff `IsValidEmail` is
true and `IsBlacklisted` is false; a blacklisted email is never emitted
regardless of validity; and `IsBlacklisted` is true iff some compiled
pattern of the ordered blacklist matches, returning at the first match. -/
theorem github_email_emission (env : GoEnv) (cfg : Config)
    (bl : List (String → Bool)) (c : CommitItem) (nm em : String)
    (hmem : (nm, em) ∈ ghIdentities c) :
    ((GHFinding.email em nm (ghCommitDate env c) c.htmlURL ∈
        ghProcessCommit env cfg bl c) ↔
      (IsValidEmail env em = true ∧ IsBlacklisted em bl = false)) ∧
    (IsBlacklisted em bl = true →
      GHFinding.email em nm (ghCommitDate env c) c.htmlURL ∉
        ghProcessCommit env cfg bl c) ∧
    (∀ (e : String) (bl2 : List (String → Bool)),
      IsBlacklisted e bl2 = true ↔ ∃ re ∈ bl2, re e = true) ∧
    (∀ (e : String) (re : String → Bool) (rest : List (String → Bool)),
      IsBlacklisted e (re :: rest) = (re e || IsBlacklisted e rest)) := by
  have hmain : (GHFinding.email em nm (ghCommitDate env c) c.htmlURL ∈
      ghProcessCommit env cfg bl c) ↔
      (IsValidEmail env em = true ∧ IsBlacklisted em bl = false) := by
    unfold ghProcessCommit
    simp only [List.mem_append, List.mem_map]
    constructor
    · rintro ((h | ⟨m, _, hEq⟩) | ⟨m, _, hEq⟩)
      · unfold ghEmailFindings at h
        rw [List.mem_filterMap] at h
        obtain ⟨who, _, hsome⟩ := h
        split at hsome
        next hcond =>
          obtain ⟨h1, h2, _, _⟩ := GHFinding.email.inj (Option.some.injEq _ _ ▸ hsome)
          rw [Bool.and_eq_true, Bool.not_eq_true'] at hcond
          exact ⟨h1 ▸ hcond.1, h1 ▸ hcond.2⟩
        · simp at hsome
      · simp at hEq
      · simp at hEq
    · rintro ⟨hv, hb⟩
      refine Or.inl (Or.inl ?_)
      unfold ghEmailFindings
      rw [List.mem_filterMap]
      refine ⟨(nm, em), hmem, ?_⟩
      simp [hv, hb]
  refine ⟨hmain, ?_, fun e bl2 => isBlacklisted_iff_exists e bl2, fun _ _ _ => rfl⟩
  intro hb hmem2
  have := (hmain.mp hmem2).2
  rw [hb] at this
  simp at this

/-- Witness for C1 at concrete inputs: the author identity of `ghCommitW`
with the permissive capabilities and an empty blacklist. -/
theorem github_email_emission_witness :
    (("John", "john@sub.example.com") ∈ ghIdentities ghCommitW) ∧
    ((GHFinding.email "john@sub.example.com" "John"
        (ghCommitDate envAccept ghCommitW) ghCommitW.htmlURL ∈
        ghProcessCommit envAccept cfgEmpty [] ghCommitW) ↔
      (IsValidEmail envAccept "john@sub.example.com" = true ∧
       IsBlacklisted "john@sub.example.com" [] = false)) := by
  exact ⟨by decide, (github_email_emission envAccept cfgEmpty [] ghCommitW
    "John" "john@sub.example.com" (by decide)).1⟩

theorem leadsWith_append (s : List Char) :
    ∀ a b : List Char, leadsWith s a = true → leadsWith s (a ++ b) = true := by
  induction s with
  | nil => intro a b _; rfl
  | cons x xs ih =>
    intro a b h
    cases a with
    | nil => simp [leadsWith] at h
    | cons y ys =>
      rw [List.cons_append]
      rw [leadsWith] at h ⊢
      rw [Bool.and_eq_true] at h ⊢
      exact ⟨h.1, ih ys b h.2⟩

theorem occursIn_nil_needle : ∀ l : List Char, occursIn [] l = true := by
  intro l
  cases l with
  | nil => rfl
  | cons b bs => rw [occursIn, leadsWith]; rfl

theorem leadsWith_refl : ∀ s : List Char, leadsWith s s = true := by
  intro s
  induction s with
  | nil => rfl
  | cons x xs ih =>
    rw [leadsWith, Bool.and_eq_true]
    exact ⟨by simp, ih⟩

theorem occursIn_self (s : List Char) : occursIn s s = true := by
  cases s with
  | nil => rfl
  | cons x xs =>
    rw [occursIn, Bool.or_eq_true]
    exact Or.inl (leadsWith_refl _)

theorem occursIn_append_left (s : List Char) :
    ∀ a b : List Char, occursIn s a = true → occursIn s (a ++ b) = true := by
  intro a
  induction a with
  | nil =>
    intro b h
    rw [occursIn] at h
    rw [List.isEmpty_iff] at h
    subst h
    exact occursIn_nil_needle b
  | cons y ys ih =>
    intro b h
    rw [occursIn, Bool.or_eq_true] at h
    rw [List.cons_append, occursIn, Bool.or_eq_true]
    rcases h with h | h
    · exact Or.inl (by rw [← List.cons_append]; exact leadsWith_append s _ b h)
    · exact Or.inr (ih b h)

theorem occursIn_append_right (s : List Char) :
    ∀ a b : List Char, occursIn s b = true → occursIn s (a ++ b) = true := by
  intro a
  induction a with
  | nil => intro b h; exact h
  | cons y ys ih =>
    intro b h
    rw [List.cons_append, occursIn, Bool.or_eq_true]
    exact Or.inr (ih b h)

theorem glSigIds_processCommit (env : GoEnv) (cfg : Config)
    (bl : List (String → Bool)) (url : String) (c : GitLabCommit) :
    glSigIds (glProcessCommit env cfg bl url c) =
      SearchPatterns c.title cfg.operatingSystems ++
      SearchPatterns c.title cfg.utilities := by
  unfold glProcessCommit glSigIds
  rw [List.filterMap_append, List.filterMap_append]
  have hemail : ∀ l : List GLFinding,
      (l = [] ∨ ∃ e n d p, l = [GLFinding.email e n d p]) →
      l.filterMap (fun f =>
        match f with
        | GLFinding.os i _ _ _ => some i
        | GLFinding.util i _ _ _ => some i
        | GLFinding.email _ _ _ _ => none) = [] := by
    rintro l (rfl | ⟨e, n, d, p, rfl⟩) <;> rfl
  rw [hemail _ (by split <;> [right; left] <;> first | exact ⟨_, _, _, _, rfl⟩ | rfl),
    List.filterMap_map, List.filterMap_map]
  have hid : ∀ (g : String → GLFinding), (∀ m, ((fun f =>
      match f with
      | GLFinding.os i _ _ _ => some i
      | GLFinding.util i _ _ _ => some i
      | GLFinding.email _ _ _ _ => none) ∘ g) m = some m) →
      ∀ l : List String, l.filterMap ((fun f =>
      match f with
      | GLFinding.os i _ _ _ => some i
      | GLFinding.util i _ _ _ => some i
      | GLFinding.email _ _ _ _ => none) ∘ g) = l := by
    intro g hg l
    induction l with
    | nil => rfl
    | cons x xs ih => rw [List.filterMap_cons, hg x, ih]
  rw [List.nil_append,
    hid (fun m => GLFinding.os m (glCommitterStr c) (env.formatDate c.authoredDate)
      url) (fun m => rfl),
    hid (fun m => GLFinding.util m (glCommitterStr c) (env.formatDate c.authoredDate)
      url) (fun m => rfl)]

/-- Claim C4 counterexample: a GitLab commit whose author name contains
the signature `zsh` produces no signature finding, although the pattern
does match the claim's composed text (message/title + identity + repo
label); gitlab.go evaluates the matcher on the commit title alone. -/
theorem composed_text_cex :
    glProcessCommit envReject cfgZshUtil [] "proj" glCommitZsh = [] ∧
    patZsh.matchString (glCommitZsh.title ++ " " ++ glCommitZsh.authorName ++
      " <" ++ glCommitZsh.authorEmail ++ "> " ++ "proj") = true := by
  exact ⟨by decide, by decide⟩

/-- Claim C4 (amended): the composed signature text differs per provider.
Bitbucket concatenates message, raw author string and repo label with
single spaces, so a signature substring of any of the three fields occurs
in the composed text; GitLab evaluates the matcher on the commit title
alone — the signature identifiers found are a function of the title only;
GitHub evaluates it on the JSON serialization of the commit item, in which
the (JSON-escaped) message occurs but no repo label (the GitHub
`ProcessCommits` receives no repository identifier at all). -/
theorem composed_text_per_provider :
    (∀ (s : List Char) (c : BBCommit) (repoName : String),
       (occursIn s c.message.data || occursIn s c.raw.data ||
        occursIn s repoName.data) = true →
       occursIn s (bbCommitText c repoName).data = true) ∧
    (∀ (env env2 : GoEnv) (cfg : Config) (bl bl2 : List (String → Bool))
       (url url2 : String) (c c2 : GitLabCommit), c.title = c2.title →
       glSigIds (glProcessCommit env cfg bl url c) =
         glSigIds (glProcessCommit env2 cfg bl2 url2 c2)) ∧
    (∀ c : CommitItem,
       occursIn (jsonEscapeStr c.commit.message).data (commitItemJson c).data
         = true) := by
  refine ⟨?_, ?_, ?_⟩
  · intro s c repoName h
    unfold bbCommitText
    simp only [String.data_append] at *
    rw [Bool.or_eq_true, Bool.or_eq_true] at h
    rcases h with (h | h) | h
    · exact occursIn_append_left _ _ _ (occursIn_append_left _ _ _
        (occursIn_append_left _ _ _ (occursIn_append_left _ _ _ h)))
    · exact occursIn_append_left _ _ _ (occursIn_append_left _ _ _
        (occursIn_append_right _ _ _ h))
    · exact occursIn_append_right _ _ _ h
  · intro env env2 cfg bl bl2 url url2 c c2 ht
    rw [glSigIds_processCommit, glSigIds_processCommit, ht]
  · intro c
    have h0 : occursIn (jsonEscapeStr c.commit.message).data
        (jsonQuote c.commit.message).data = true := by
      unfold jsonQuote
      simp only [String.data_append]
      exact occursIn_append_left _ _ _ (occursIn_append_right _ _ _
        (occursIn_self _))
    have h1 : occursIn (jsonEscapeStr c.commit.message).data
        (commitInfoJson c.commit).data = true := by
      unfold commitInfoJson
      simp only [String.data_append]
      exact occursIn_append_left _ _ _ (occursIn_append_right _ _ _ h0)
    unfold commitItemJson
    simp only [String.data_append]
    exact occursIn_append_left _ _ _ (occursIn_append_right _ _ _ h1)

/-- Witness for C4 (amended) at concrete inputs: an `Arch` signature
embedded in a Bitbucket commit message occurs in the composed text. -/
theorem composed_text_per_provider_witness :
    ((occursIn "Arch".data bbCommitNoAngle.message.data ||
      occursIn "Arch".data bbCommitNoAngle.raw.data ||
      occursIn "Arch".data "r".data) = true) ∧
    occursIn "Arch".data (bbCommitText bbCommitNoAngle "r").data = true := by
  exact ⟨by decide, composed_text_per_provider.1 "Arch".data bbCommitNoAngle "r"
    (by decide)⟩

theorem ghProcessCommits_append (env : GoEnv) (cfg : Config)
    (bl : List (String → Bool)) (a b : List CommitItem) :
    ghProcessCommits env cfg bl (a ++ b) =
      ghProcessCommits env cfg bl a ++ ghProcessCommits env cfg bl b := by
  simp [ghProcessCommits]

theorem ghDriveRepos_eq_filter :
    ∀ repos : List Repo, ghDriveRepos repos = repos.filter (fun r => r.fork = false) := by
  intro repos
  induction repos with
  | nil => rfl
  | cons r rest ih =>
    rw [ghDriveRepos, List.filter_cons]
    cases hf : r.fork <;> simp [hf, ih]

/-- Claim C5: each paged fetch loop returns exactly the concatenation of
the non-empty pages in request order (terminator: an empty page for the
page-numbered API, an absent next cursor for the cursor API); and an
ascending (oldest-first) request returns exactly the reverse of the
buffered natural newest-first order. -/
theorem pagination_spec :
    (∀ pages : List (List GitLabCommit), (∀ p ∈ pages, p ≠ []) →
       collectUntilEmpty (pages ++ [[]]) = pages.flatten) ∧
    (∀ (front : List (List BBCommit × Bool)) (lastPage : List BBCommit),
       (∀ pr ∈ front, pr.2 = true) →
       collectCursor (front ++ [(lastPage, false)]) =
         (front.map Prod.fst).flatten ++ lastPage) ∧
    (∀ script : List (List GitLabCommit),
       glScanProjectCommits script true =
         (glScanProjectCommits script false).reverse) ∧
    (∀ script : List (List BBCommit × Bool),
       bbScanRepoCommits script true = (bbScanRepoCommits script false).reverse) := by
  refine ⟨?_, ?_, ?_, ?_⟩
  · intro pages h
    induction pages with
    | nil => simp [collectUntilEmpty]
    | cons p ps ih =>
      have hp : p ≠ [] := h p (List.mem_cons_self p ps)
      rw [List.cons_append, collectUntilEmpty, if_neg (by simpa using hp),
        ih (fun q hq => h q (List.mem_cons_of_mem p hq)), List.flatten_cons]
  · intro front lastPage h
    induction front with
    | nil => simp [collectCursor]
    | cons pr prs ih =>
      have hpr : pr.2 = true := h pr (List.mem_cons_self pr prs)
      rw [List.cons_append, collectCursor, hpr, if_pos rfl,
        ih (fun q hq => h q (List.mem_cons_of_mem pr hq))]
      simp [List.append_assoc]
  · intro script; simp [glScanProjectCommits]
  · intro script; simp [bbScanRepoCommits]

/-- Witness for C5 at concrete two-page scripts. -/
theorem pagination_spec_witness :
    ((∀ p ∈ [[glCommitZsh], [glCommitB]], p ≠ []) ∧
     collectUntilEmpty ([[glCommitZsh], [glCommitB]] ++ [[]]) =
       [[glCommitZsh], [glCommitB]].flatten) ∧
    ((∀ pr ∈ [([bbCommitB], true)], pr.2 = true) ∧
     collectCursor ([([bbCommitB], true)] ++ [([bbCommitNoAngle], false)]) =
       ([([bbCommitB], true)].map Prod.fst).flatten ++ [bbCommitNoAngle]) := by
  refine ⟨⟨by decide, pagination_spec.1 _ (by decide)⟩,
    ⟨by decide, pagination_spec.2.1 _ _ (by decide)⟩⟩

/-- Claim C6: on the global search endpoint a 422 response ends the
directional pass via the search-cap branch (with the commits of the
earlier pages already processed), every other non-200 status ends it via
the API-error branch with the body never interpreted as a commit page, and
the outcome of one global pass affects neither the other directional pass
nor the per-repository pass. -/
theorem gh_search_cap (env : GoEnv) (cfg : Config) (bl : List (String → Bool)) :
    (∀ (body : Option (List CommitItem)) (rest : List GHResp),
       ghScanGlobal env cfg bl (GHResp.page 422 body :: rest) =
         ([], GHOutcome.searchCap)) ∧
    (∀ pages : List (List CommitItem), (∀ p ∈ pages, p ≠ []) →
       ∀ (body : Option (List CommitItem)) (rest : List GHResp),
       ghScanGlobal env cfg bl
           ((pages.map (fun p => GHResp.page 200 (some p))) ++
            GHResp.page 422 body :: rest) =
         (ghProcessCommits env cfg bl pages.flatten, GHOutcome.searchCap)) ∧
    (∀ status : Nat, status ≠ 200 → status ≠ 422 →
       ∀ (body : Option (List CommitItem)) (rest : List GHResp),
       ghScanGlobal env cfg bl (GHResp.page status body :: rest) =
         ([], GHOutcome.apiError status)) ∧
    (∀ (s1 s1' s2 : List GHResp) (rs : List (List GHResp)),
       (ghMainPhases env cfg bl s1 s2 rs).2 =
         (ghMainPhases env cfg bl s1' s2 rs).2) := by
  refine ⟨?_, ?_, ?_, ?_⟩
  · intro body rest
    rfl
  · intro pages h
    induction pages with
    | nil => intro body rest; rfl
    | cons p ps ih =>
      intro body rest
      have hp : p.isEmpty = false := by
        simpa using h p (List.mem_cons_self p ps)
      have hrec := ih (fun q hq => h q (List.mem_cons_of_mem p hq)) body rest
      simp [ghScanGlobal, hp, hrec, ghProcessCommits_append]
  · intro status h200 h422 body rest
    simp [ghScanGlobal, h200, h422]
  · intro s1 s1' s2 rs
    rfl

/-- Witness for C6 at concrete responses: a 500 with a decodable body
yields the API-error outcome and no findings, a 422 yields the search-cap
outcome. -/
theorem gh_search_cap_witness :
    ((500 : Nat) ≠ 200 ∧ (500 : Nat) ≠ 422) ∧
    ghScanGlobal envAccept cfgEmpty [] [GHResp.page 500 (some [ghCommitW])] =
      ([], GHOutcome.apiError 500) ∧
    ghScanGlobal envAccept cfgEmpty [] [GHResp.page 422 (some [ghCommitW])] =
      ([], GHOutcome.searchCap) := by
  refine ⟨⟨by decide, by decide⟩, ?_, ?_⟩
  · exact (gh_search_cap envAccept cfgEmpty []).2.2.1 500 (by decide) (by decide)
      (some [ghCommitW]) []
  · exact (gh_search_cap envAccept cfgEmpty []).1 (some [ghCommitW]) []

/-- Claim C8: fork exclusion happens at project-enumeration time — the
commit-fetch calls of a run are exactly those for the non-fork entries of
the enumerated list, so no fetch is ever attempted for a fork, and a list
of one fork and one non-fork yields a fetch for the non-fork only. -/
theorem fork_exclusion :
    (∀ repos : List Repo,
       ghDriveRepos repos = repos.filter (fun r => r.fork = false)) ∧
    (∀ (repos : List Repo) (r : Repo), r ∈ ghDriveRepos repos →
       r.fork = false) ∧
    (∀ (ps : List GitLabProject) (p : GitLabProject) (b : Bool),
       (p, b) ∈ glDriveCalls ps → p.forkedFromProject = none) ∧
    (∀ r1 r2 : Repo, r1.fork = true → r2.fork = false →
       ghDriveRepos [r1, r2] = [r2]) := by
  refine ⟨ghDriveRepos_eq_filter, ?_, ?_, ?_⟩
  · intro repos r h
    rw [ghDriveRepos_eq_filter] at h
    simpa using (List.of_mem_filter h)
  · intro ps
    induction ps with
    | nil => intro p b h; simp [glDriveCalls] at h
    | cons q qs ih =>
      intro p b h
      cases hq : q.forkedFromProject.isNone with
      | true =>
        rw [glDriveCalls, hq, if_pos rfl] at h
        rcases List.mem_cons.mp h with h1 | h1
        · rw [Prod.mk.injEq] at h1
          rw [h1.1]
          exact Option.isNone_iff_eq_none.mp hq
        · rcases List.mem_cons.mp h1 with h2 | h2
          · rw [Prod.mk.injEq] at h2
            rw [h2.1]
            exact Option.isNone_iff_eq_none.mp hq
          · exact ih p b h2
      | false =>
        rw [glDriveCalls, hq] at h
        simp only [Bool.false_eq_true, if_false] at h
        exact ih p b h
  · intro r1 r2 h1 h2
    simp [ghDriveRepos, h1, h2]

/-- Witness for C8 at a concrete one-fork/one-non-fork list. -/
theorem fork_exclusion_witness :
    (repoFork.fork = true ∧ repoMain.fork = false) ∧
    ghDriveRepos [repoFork, repoMain] = [repoMain] := by
  exact ⟨⟨by decide, by decide⟩,
    fork_exclusion.2.2.2 repoFork repoMain (by decide) (by decide)⟩

/-- Claim C9: gitlab.go's driver scans every non-fork project twice per
run — ascending (locally reversed) then descending — so over the two
passes every finding value occurs exactly twice as often as in a single
pass on the same fetched history. -/
theorem gl_double_emission (env : GoEnv) (cfg : Config)
    (bl : List (String → Bool)) (p : GitLabProject)
    (script : List (List GitLabCommit)) (f : GLFinding) :
    (∀ ps : List GitLabProject,
       glDriveCalls ps =
         (ps.filter (fun q => q.forkedFromProject.isNone)).flatMap
           (fun q => [(q, true), (q, false)])) ∧
    List.count f (glRunProjectBothPasses env cfg bl p script) =
      2 * List.count f (glProcessCommits env cfg bl p.webURL
        (glScanProjectCommits script false)) := by
  constructor
  · intro ps
    induction ps with
    | nil => rfl
    | cons q qs ih =>
      rw [glDriveCalls, List.filter_cons]
      cases hq : q.forkedFromProject.isNone <;> simp [hq, ih]
  · have hperm :
        (glProcessCommits env cfg bl p.webURL
          ((collectUntilEmpty script).reverse)).Perm
        (glProcessCommits env cfg bl p.webURL (collectUntilEmpty script)) := by
      unfold glProcessCommits
      exact List.Perm.flatten (List.Perm.map _ (List.reverse_perm _))
    have h1 : glScanProjectCommits script true =
        (collectUntilEmpty script).reverse := by
      simp [glScanProjectCommits]
    have h2 : glScanProjectCommits script false = collectUntilEmpty script := by
      simp [glScanProjectCommits]
    unfold glRunProjectBothPasses
    rw [List.count_append, h1, h2, hperm.count_eq f, two_mul]

/-- Claim C10: `IsValidEmail` rejects the empty string (it fails the `@`
check), so a Bitbucket commit whose raw author string lacks angle brackets
— making the parsed email empty — never yields an EmailFinding, while its
signature findings are exactly the usual OS and utility blocks. -/
theorem bb_empty_email (env : GoEnv) (cfg : Config) (bl : List (String → Bool))
    (repoName : String) (c : BBCommit)
    (h : (c.raw.data.contains '<' && c.raw.data.contains '>') = false) :
    (∀ env2 : GoEnv, IsValidEmail env2 "" = false) ∧
    (parseRawAuthor c.raw).2 = "" ∧
    bbEmailFindings env bl c repoName = [] ∧
    bbProcessCommit env cfg bl repoName c =
      bbOsFindings env cfg c repoName ++ bbUtilFindings env cfg c repoName := by
  have hvempty : ∀ env2 : GoEnv, IsValidEmail env2 "" = false := fun env2 => rfl
  have hemail : (parseRawAuthor c.raw).2 = "" := by
    unfold parseRawAuthor
    rw [if_neg (fun hc => Bool.noConfusion (hc ▸ h))]
  have hfind : bbEmailFindings env bl c repoName = [] := by
    unfold bbEmailFindings
    rw [hemail, hvempty env]
    rfl
  refine ⟨hvempty, hemail, hfind, ?_⟩
  unfold bbProcessCommit
  rw [hfind, List.nil_append]

/-- Witness for C10 at a concrete bracket-free commit: no email finding,
one OS signature finding. -/
theorem bb_empty_email_witness :
    ((bbCommitNoAngle.raw.data.contains '<' &&
      bbCommitNoAngle.raw.data.contains '>') = false) ∧
    bbEmailFindings envAccept [] bbCommitNoAngle "r" = [] ∧
    bbProcessCommit envAccept cfgArchOS [] "r" bbCommitNoAngle =
      [BBFinding.os "arch" "d" "r" "http://bb/c"] := by
  refine ⟨by decide,
    (bb_empty_email envAccept cfgArchOS [] "r" bbCommitNoAngle (by decide)).2.2.1,
    by decide⟩

end Dossier
